import Mathlib

/-!
Verification of the grin p2p `Server` (src/p2p/src/server.rs) against its
natural-language specification.

The Rust code is shallowly embedded: the peer registry is a `List Peer`,
each registry entry carries the snapshot of `is_connected()` and the
outcome its `send_block` would produce at call time, asynchronous
handshake/dial outcomes are supplied as explicit environment records, and
side effects (adapter callbacks, registry insertions, per-peer `stop`
calls, the one-shot shutdown signal) are reified as event traces.
-/

namespace Grin

/-- A socket address, `std::net::SocketAddr`: ip plus port. -/
structure SocketAddr where
  ip : Nat
  port : Nat
deriving DecidableEq, Repr

/-- The `PeerInfo` record: address, capabilities bit-set and total difficulty
(difficulty is an opaque totally ordered scalar, embedded as `Nat`). -/
structure PeerInfo where
  addr : SocketAddr
  capabilities : Nat
  total_difficulty : Nat
deriving DecidableEq, Repr

/-- A registry entry (`Arc<Peer>`). `connected` is the value
`is_connected()` returns at call time, `sendOk` whether `send_block`
would succeed at call time. -/
structure Peer where
  info : PeerInfo
  connected : Bool
  sendOk : Bool
deriving DecidableEq, Repr

/-- The `P2PConfig` record: the configured bind host and port. -/
structure P2PConfig where
  host : Nat
  port : Nat
deriving DecidableEq, Repr

/-- The errors of the p2p server core (`Error` in the source);
opaque handshake-protocol errors are folded into one constructor. -/
inductive Error
  | Connection
  | Timeout
  | ConnectionClose
  | Handshake
deriving DecidableEq, Repr

/-- The `Server` state: config, capabilities, peer registry, and the
one-shot shutdown sender slot (`stop: RefCell<Option<Sender>>`), armed
(`some ()`) only after `start` ran. -/
structure ServerState where
  config : P2PConfig
  capabilities : Nat
  peers : List Peer
  stopSlot : Option Unit
deriving DecidableEq, Repr

/-! ## Peer registry operations -/

/-- The loop body of `most_work_peer`: replace the current best `res` by
`p` exactly when `p.is_connected() && res.info.total_difficulty <
p.info.total_difficulty`. -/
def mwStep (res p : Peer) : Peer :=
  if p.connected = true ∧ res.info.total_difficulty < p.info.total_difficulty then p else res

/-- Embeds `Server::most_work_peer`: `None` on an empty registry; otherwise seed
`res` with `peers[0]` and scan the whole vector with `mwStep`. -/
def most_work_peer : List Peer → Option Peer
  | [] => none
  | p0 :: rest => some ((p0 :: rest).foldl mwStep p0)

/-- Embeds `Server::clean_peers`: fold the registry into `(keep, rm)` pushing
connected entries onto `keep` and the rest onto `rm`; the registry is
replaced by `keep` and `rm` is returned. -/
def clean_peers (peers : List Peer) : List Peer × List Peer :=
  peers.foldl
    (fun acc p => if p.connected = true then (acc.1 ++ [p], acc.2) else (acc.1, acc.2 ++ [p]))
    ([], [])

/-- One attempted `send_block` during a broadcast: the peer and whether
the send succeeded (a failure is only logged). -/
inductive SendEvent
  | attempt (p : Peer) (ok : Bool)
deriving DecidableEq, Repr

/-- Embeds `Server::broadcast_block`: iterate the registry, attempt `send_block`
on every connected entry (an `Err` is logged and the loop continues);
the registry itself is not modified. Returns the trace of attempts and
the registry contents after the call. -/
def broadcast_block (peers : List Peer) : List SendEvent × List Peer :=
  (peers.foldl (fun evs p => if p.connected = true then evs ++ [.attempt p p.sendOk] else evs) [],
   peers)

/-! ## Registry lemmas -/

/-- Unguarded strict-maximum step: `mwStep` once non-connected entries
are filtered away. -/
def maxStep (res p : Peer) : Peer :=
  if res.info.total_difficulty < p.info.total_difficulty then p else res

theorem mwStep_self (p : Peer) : mwStep p p = p := by
  simp [mwStep]

theorem mwStep_not_connected (res p : Peer) (h : p.connected = false) : mwStep res p = res := by
  simp [mwStep, h]

theorem mwStep_connected (res p : Peer) (h : p.connected = true) : mwStep res p = maxStep res p := by
  simp [mwStep, maxStep, h]

/-- Scanning the registry with `mwStep` is scanning its connected
sublist with the unguarded maximum step. -/
theorem foldl_mwStep_eq_filter (l : List Peer) :
    ∀ a : Peer, l.foldl mwStep a = (l.filter (·.connected)).foldl maxStep a := by
  induction l with
  | nil => intro a; rfl
  | cons p t ih =>
    intro a
    by_cases hp : p.connected = true
    · simp [List.filter_cons, hp, List.foldl_cons, mwStep_connected a p hp, ih]
    · have hp' : p.connected = false := by
        cases hcp : p.connected
        · rfl
        · exact absurd hcp hp
      simp [List.filter_cons, hp', List.foldl_cons, mwStep_not_connected a p hp', ih]

/-- The `maxStep` fold computes the first-seen maximum of the seed and
the list: the result splits the candidate list into a strictly smaller
prefix, itself, and a suffix of entries not exceeding it. -/
theorem foldl_maxStep_first_max (l : List Peer) :
    ∀ a : Peer,
      (∀ c ∈ a :: l, c.info.total_difficulty ≤ (l.foldl maxStep a).info.total_difficulty) ∧
      ∃ pre post, a :: l = pre ++ (l.foldl maxStep a) :: post ∧
        ∀ c ∈ pre, c.info.total_difficulty < (l.foldl maxStep a).info.total_difficulty := by
  induction l with
  | nil =>
    intro a
    refine ⟨?_, [], [], rfl, by simp⟩
    intro c hc
    simp at hc
    simp [hc]
  | cons p t ih =>
    intro a
    by_cases h : a.info.total_difficulty < p.info.total_difficulty
    · have hstep : (p :: t).foldl maxStep a = t.foldl maxStep p := by
        simp [List.foldl_cons, maxStep, h]
      obtain ⟨hle, pre, post, hsplit, hlt⟩ := ih p
      have hres : p.info.total_difficulty ≤ (t.foldl maxStep p).info.total_difficulty :=
        hle p (by simp)
      refine ⟨?_, a :: pre, post, ?_, ?_⟩
      · intro c hc
        rw [hstep]
        rcases List.mem_cons.mp hc with hc | hc
        · exact hc ▸ le_trans (le_of_lt h) hres
        · exact hle c (by
            rcases List.mem_cons.mp hc with hc' | hc'
            · simp [hc']
            · exact List.mem_cons_of_mem p hc')
      · rw [hstep, List.cons_append, ← hsplit]
      · intro c hc
        rw [hstep]
        rcases List.mem_cons.mp hc with hc | hc
        · exact hc ▸ lt_of_lt_of_le h hres
        · exact hlt c hc
    · have hstep : (p :: t).foldl maxStep a = t.foldl maxStep a := by
        simp [List.foldl_cons, maxStep, h]
      obtain ⟨hle, pre, post, hsplit, hlt⟩ := ih a
      have hpa : p.info.total_difficulty ≤ a.info.total_difficulty := le_of_not_lt h
      have hares : a.info.total_difficulty ≤ (t.foldl maxStep a).info.total_difficulty :=
        hle a (by simp)
      refine ⟨?_, ?_⟩
      · intro c hc
        rw [hstep]
        rcases List.mem_cons.mp hc with hc | hc
        · exact hc ▸ hares
        · rcases List.mem_cons.mp hc with hc' | hc'
          · exact hc' ▸ le_trans hpa hares
          · exact hle c (List.mem_cons_of_mem a hc')
      · rw [hstep]
        cases pre with
        | nil =>
          have ha : t.foldl maxStep a = a := by
            have := hsplit
            simp at this
            exact this.1.symm
          refine ⟨[], p :: t, ?_, by simp⟩
          simp [ha]
        | cons q pre' =>
          have hq : q = a ∧ t = pre' ++ (t.foldl maxStep a) :: post := by
            have := hsplit
            simp at this
            exact ⟨this.1.symm, this.2⟩
          refine ⟨a :: p :: pre', post, ?_, ?_⟩
          · show a :: p :: t = (a :: p :: pre') ++ (t.foldl maxStep a) :: post
            rw [List.cons_append, List.cons_append, ← hq.2]
          · intro c hc
            have halt : a.info.total_difficulty < (t.foldl maxStep a).info.total_difficulty := by
              have := hlt q (by simp)
              rw [hq.1] at this
              exact this
            rcases List.mem_cons.mp hc with hc | hc
            · exact hc ▸ halt
            · rcases List.mem_cons.mp hc with hc' | hc'
              · exact hc' ▸ lt_of_le_of_lt hpa halt
              · exact hlt c (List.mem_cons_of_mem q hc')

/-- The `clean_peers` fold with generalized accumulators: it appends the
connected entries to the first component and the rest to the second. -/
theorem clean_peers_foldl (l : List Peer) :
    ∀ a b : List Peer,
      l.foldl
        (fun acc p => if p.connected = true then (acc.1 ++ [p], acc.2) else (acc.1, acc.2 ++ [p]))
        (a, b)
      = (a ++ l.filter (·.connected), b ++ l.filter (fun p => !p.connected)) := by
  induction l with
  | nil => intro a b; simp
  | cons p t ih =>
    intro a b
    by_cases hp : p.connected = true
    · simp [List.filter_cons, hp, List.foldl_cons, ih, List.append_assoc]
    · have hp' : p.connected = false := Bool.eq_false_iff.mpr hp
      simp [List.filter_cons, hp', List.foldl_cons, ih, List.append_assoc]

/-- The function `clean_peers` keeps exactly the connected entries and returns
exactly the disconnected ones, both in registry order. -/
theorem clean_peers_eq (peers : List Peer) :
    clean_peers peers = (peers.filter (·.connected), peers.filter (fun p => !p.connected)) := by
  simpa [clean_peers] using clean_peers_foldl peers [] []

/-- The `broadcast_block` fold with a generalized accumulator. -/
theorem broadcast_foldl (l : List Peer) :
    ∀ evs : List SendEvent,
      l.foldl (fun evs p => if p.connected = true then evs ++ [.attempt p p.sendOk] else evs) evs
      = evs ++ (l.filter (·.connected)).map (fun p => SendEvent.attempt p p.sendOk) := by
  induction l with
  | nil => intro evs; simp
  | cons p t ih =>
    intro evs
    by_cases hp : p.connected = true
    · simp [List.filter_cons, hp, List.foldl_cons, ih, List.append_assoc]
    · have hp' : p.connected = false := Bool.eq_false_iff.mpr hp
      simp [List.filter_cons, hp', List.foldl_cons, ih]

/-! ## Handshake, registration and `connect_peer` -/

/-- One observable side effect of a successful handshake registration. -/
inductive Event
  | peerConnectedCallback (p : Peer)
  | insert (p : Peer)
deriving DecidableEq, Repr

/-- Embeds `add_to_peers` (source lines 264-278): on the handshake future's
success, call `adapter.peer_connected(&peer.info)` and then push the
peer onto the registry — in that order. Returns the event trace and the
registry contents afterwards. -/
def add_to_peers (peers : List Peer) (p : Peer) : List Event × List Peer :=
  ([Event.peerConnectedCallback p, Event.insert p], peers ++ [p])

/-- Environment of one handshake attempt: seconds until the handshake
future would complete, and the protocol outcome it would produce. -/
structure HsEnv where
  dur : Nat
  outcome : Except Unit Peer
deriving Repr

/-- Result of a timed registration: the value `with_timeout` yields, the
side-effect trace, and the registry contents afterwards. -/
structure AddOutcome where
  result : Except Error Peer
  events : List Event
  peersAfter : List Peer
deriving Repr

/-- Embeds `with_timeout` wrapped around `add_to_peers` of a handshake future
(`Peer::accept` / `Peer::connect`), exactly as both the acceptor and
`connect_peer` compose them: the handshake races a 5-second timer; if
the timer wins the result is `Error::Timeout` and the abandoned
handshake never reaches `add_to_peers`; a handshake protocol error
propagates through the `select`'s error branch; on an in-time success
`add_to_peers` runs. -/
def timed_add (peers : List Peer) (env : HsEnv) : AddOutcome :=
  if 5 < env.dur then ⟨.error .Timeout, [], peers⟩
  else
    match env.outcome with
    | .error _ => ⟨.error .Handshake, [], peers⟩
    | .ok p => ⟨.ok p, (add_to_peers peers p).1, (add_to_peers peers p).2⟩

/-- Environment of one outbound dial: whether `TcpStream::connect`
succeeds, and the handshake environment used if it does. -/
structure DialEnv where
  transportOk : Bool
  hs : HsEnv
deriving Repr

/-- Result record of `connect_peer`: the returned value, whether a transport
connection was opened, the registration events, and the registry
contents afterwards. -/
structure ConnectOutcome where
  result : Except Error (Option Peer)
  dialed : Bool
  events : List Event
  peersAfter : List Peer
deriving Repr

/-- Embeds `Server::connect_peer` (source lines 144-187): return the first
registry entry whose address equals `addr` without dialing; otherwise
return `None` when `addr` equals the node's own bind host/port, without
dialing; otherwise dial (a transport failure is `Error::Connection`) and
run the handshake through the timed registration. -/
def connect_peer (st : ServerState) (addr : SocketAddr) (env : DialEnv) : ConnectOutcome :=
  match st.peers.find? (fun p => decide (p.info.addr = addr)) with
  | some p => ⟨.ok (some p), false, [], st.peers⟩
  | none =>
    if addr.ip = st.config.host ∧ addr.port = st.config.port then
      ⟨.ok none, false, [], st.peers⟩
    else if env.transportOk = true then
      let a := timed_add st.peers env.hs
      ⟨a.result.map some, true, a.events, a.peersAfter⟩
    else
      ⟨.error .Connection, true, [], st.peers⟩

/-! ## Shutdown -/

/-- Observable side effects of `Server::stop`. -/
inductive StopEvent
  | peerStop (p : Peer)
  | fireSignal
deriving DecidableEq, Repr

/-- Embeds `Server::stop` (source lines 254-260): call `stop()` on every
registry entry, then `self.stop.into_inner().unwrap().complete(())`.
The flag is `some ()` on normal completion; it is `none` when the
`unwrap` of an empty slot panics — `stop` before `start`. -/
def stop (st : ServerState) : List StopEvent × Option Unit :=
  match st.stopSlot with
  | none => (st.peers.map StopEvent.peerStop, none)
  | some _ => (st.peers.map StopEvent.peerStop ++ [StopEvent.fireSignal], some ())

/-- Completion state of the future `Server::start` returns:
`server.select(stop_rx.map_err(..)).then(..)`. It resolves `Ok(())`
once the shutdown signal fires, resolves `Err` when the accept loop
errors first, and stays pending otherwise. `runLoopsActive` — the
number of in-flight per-peer run loops, each spawned as an independent
task — is an argument precisely so that independence from it can be
stated. -/
def startResult (signalFired : Bool) (acceptErr : Option Error) (runLoopsActive : Nat) :
    Option (Except Error Unit) :=
  match acceptErr with
  | some e => some (.error e)
  | none => if signalFired = true then some (.ok ()) else none

/-! ## Spec-side predicates -/

/-- The specification's description of `most_work_peer`, written from
the spec's words for comparison with the implementation: none exactly on
an empty registry; on a non-empty registry, whenever some entry is
connected the result must be a connected entry of maximal difficulty
(the spec's first-seen tie rule is deliberately omitted here, which only
weakens the predicate), and may be any registry entry when no entry is
connected. -/
def specMostWorkPeer (peers : List Peer) (r : Option Peer) : Bool :=
  match peers, r with
  | [], none => true
  | [], some _ => false
  | _ :: _, none => false
  | _ :: _, some p =>
    if peers.any (·.connected) then
      p.connected && decide (p ∈ peers) &&
        peers.all (fun q =>
          !q.connected || decide (q.info.total_difficulty ≤ p.info.total_difficulty))
    else decide (p ∈ peers)

/-- The predicate `precedesIn a b tr`: some occurrence of `a` comes strictly before
some occurrence of `b` in the trace `tr`. -/
def precedesIn (a b : Event) : List Event → Bool
  | [] => false
  | e :: tr => (e == a && tr.contains b) || precedesIn a b tr

/-! ## Helper lemmas shared by the claim theorems -/

/-- Helper: a handshake slower than the 5-second timer makes the timed
registration fail with `Timeout`, untouched registry, no events. -/
theorem timed_add_timeout (peers : List Peer) (env : HsEnv) (h : 5 < env.dur) :
    timed_add peers env = ⟨.error .Timeout, [], peers⟩ := by
  simp [timed_add, h]

/-- Helper: every failed timed registration leaves the registry
unchanged and emits no events. -/
theorem timed_add_error (peers : List Peer) (env : HsEnv) (e : Error)
    (he : (timed_add peers env).result = .error e) :
    (timed_add peers env).peersAfter = peers ∧ (timed_add peers env).events = [] := by
  by_cases h5 : 5 < env.dur
  · simp [timed_add, h5]
  · cases ho : env.outcome with
    | error u => simp [timed_add, h5, ho]
    | ok p =>
      exfalso
      simp [timed_add, h5, ho] at he

/-- Helper: every failed `connect_peer` leaves the registry unchanged
and emits no events. -/
theorem connect_peer_error (st : ServerState) (addr : SocketAddr) (env : DialEnv) (e : Error)
    (he : (connect_peer st addr env).result = .error e) :
    (connect_peer st addr env).peersAfter = st.peers ∧ (connect_peer st addr env).events = [] := by
  cases hf : st.peers.find? (fun p => decide (p.info.addr = addr)) with
  | some p =>
    simp [connect_peer, hf] at he
  | none =>
    by_cases hself : addr.ip = st.config.host ∧ addr.port = st.config.port
    · simp [connect_peer, hf, hself] at he
    · by_cases ht : env.transportOk = true
      · cases ha : (timed_add st.peers env.hs).result with
        | ok p =>
          exfalso
          simp [connect_peer, hf, hself, ht, ha, Except.map] at he
        | error e' =>
          have h2 := timed_add_error st.peers env.hs e' ha
          simp [connect_peer, hf, hself, ht]
          exact h2
      · simp [connect_peer, hf, hself, ht]

/-! ## Claim theorems -/

/-- C1, counterexample: on the registry `[disconnected with difficulty
2, connected with difficulty 1]` the scan seeded with `peers[0]` returns
the disconnected first entry even though a connected entry exists, so
the claimed behaviour of `most_work_peer` (already weakened by dropping
its tie rule) is violated. -/
theorem most_work_peer_counterexample :
    most_work_peer
        [⟨⟨⟨0, 1⟩, 0, 2⟩, false, true⟩, ⟨⟨⟨0, 2⟩, 0, 1⟩, true, true⟩]
      = some ⟨⟨⟨0, 1⟩, 0, 2⟩, false, true⟩ ∧
    (⟨⟨⟨0, 1⟩, 0, 2⟩, false, true⟩ : Peer).connected = false ∧
    (⟨⟨⟨0, 2⟩, 0, 1⟩, true, true⟩ : Peer).connected = true ∧
    specMostWorkPeer
        [⟨⟨⟨0, 1⟩, 0, 2⟩, false, true⟩, ⟨⟨⟨0, 2⟩, 0, 1⟩, true, true⟩]
        (most_work_peer [⟨⟨⟨0, 1⟩, 0, 2⟩, false, true⟩, ⟨⟨⟨0, 2⟩, 0, 1⟩, true, true⟩])
      = false := by
  refine ⟨by decide, rfl, rfl, by decide⟩

/-- C1, amended: `most_work_peer` is none exactly on the empty registry;
on a non-empty registry it returns the first-seen maximal-difficulty
entry among the candidates formed by the FIRST registry entry (whatever
its connection state) together with all connected entries: the result is
a candidate, no candidate strictly exceeds it, and every candidate seen
before it has strictly smaller difficulty (so first-seen wins ties, and
with no connected entry the first entry is returned). -/
theorem most_work_peer_first_seen_max :
    most_work_peer [] = none ∧
    ∀ p0 rest, ∃ r, most_work_peer (p0 :: rest) = some r ∧
      r ∈ p0 :: rest ∧ (r = p0 ∨ r.connected = true) ∧
      (∀ c ∈ p0 :: rest.filter (·.connected),
        c.info.total_difficulty ≤ r.info.total_difficulty) ∧
      ∃ pre post, p0 :: rest.filter (·.connected) = pre ++ r :: post ∧
        ∀ c ∈ pre, c.info.total_difficulty < r.info.total_difficulty := by
  refine ⟨rfl, fun p0 rest => ?_⟩
  have hfold : (p0 :: rest).foldl mwStep p0 = (rest.filter (·.connected)).foldl maxStep p0 := by
    rw [List.foldl_cons, mwStep_self]
    exact foldl_mwStep_eq_filter rest p0
  obtain ⟨hle, pre, post, hsplit, hlt⟩ := foldl_maxStep_first_max (rest.filter (·.connected)) p0
  have h1 : most_work_peer (p0 :: rest) = some ((rest.filter (·.connected)).foldl maxStep p0) := by
    show some ((p0 :: rest).foldl mwStep p0) = _
    rw [hfold]
  have hmem : (rest.filter (·.connected)).foldl maxStep p0 ∈ p0 :: rest.filter (·.connected) := by
    rw [hsplit]
    exact List.mem_append.mpr (Or.inr (List.mem_cons_self _ _))
  refine ⟨_, h1, ?_, ?_, hle, pre, post, hsplit, hlt⟩
  · rcases List.mem_cons.mp hmem with h | h
    · rw [h]; exact List.mem_cons_self _ _
    · exact List.mem_cons_of_mem p0 (List.mem_of_mem_filter h)
  · rcases List.mem_cons.mp hmem with h | h
    · exact Or.inl h
    · exact Or.inr (by simpa using List.of_mem_filter h)

/-- C2, counterexample: on a successful in-time handshake the trace of
`add_to_peers` is callback first, insertion second, so the insertion
does NOT precede the `peer_connected` callback. -/
theorem add_order_counterexample :
    (timed_add [] ⟨0, .ok ⟨⟨⟨9, 9⟩, 0, 5⟩, true, true⟩⟩).result
      = .ok ⟨⟨⟨9, 9⟩, 0, 5⟩, true, true⟩ ∧
    (timed_add [] ⟨0, .ok ⟨⟨⟨9, 9⟩, 0, 5⟩, true, true⟩⟩).events
      = [Event.peerConnectedCallback ⟨⟨⟨9, 9⟩, 0, 5⟩, true, true⟩,
         Event.insert ⟨⟨⟨9, 9⟩, 0, 5⟩, true, true⟩] ∧
    precedesIn (Event.insert ⟨⟨⟨9, 9⟩, 0, 5⟩, true, true⟩)
        (Event.peerConnectedCallback ⟨⟨⟨9, 9⟩, 0, 5⟩, true, true⟩)
        (timed_add [] ⟨0, .ok ⟨⟨⟨9, 9⟩, 0, 5⟩, true, true⟩⟩).events
      = false := by
  refine ⟨rfl, rfl, by decide⟩

/-- C2, amended: on every successful handshake (inbound or outbound
path, both go through `add_to_peers`) the new peer is inserted into the
registry and `adapter.peer_connected` is invoked, with the callback
immediately BEFORE the registry insertion. -/
theorem add_callback_then_insert (peers : List Peer) (env : HsEnv) (p : Peer)
    (hok : env.outcome = .ok p) (ht : env.dur ≤ 5) :
    (timed_add peers env).result = .ok p ∧
    (timed_add peers env).events = [Event.peerConnectedCallback p, Event.insert p] ∧
    (timed_add peers env).peersAfter = peers ++ [p] ∧
    precedesIn (Event.peerConnectedCallback p) (Event.insert p)
      (timed_add peers env).events = true := by
  have h5 : ¬ 5 < env.dur := not_lt.mpr ht
  refine ⟨?_, ?_, ?_, ?_⟩ <;> simp [timed_add, h5, hok, add_to_peers, precedesIn]

theorem add_callback_then_insert_witness :
    (timed_add [] ⟨1, .ok ⟨⟨⟨3, 4⟩, 0, 7⟩, true, true⟩⟩).events
      = [Event.peerConnectedCallback ⟨⟨⟨3, 4⟩, 0, 7⟩, true, true⟩,
         Event.insert ⟨⟨⟨3, 4⟩, 0, 7⟩, true, true⟩] :=
  (add_callback_then_insert [] ⟨1, .ok ⟨⟨⟨3, 4⟩, 0, 7⟩, true, true⟩⟩
      ⟨⟨⟨3, 4⟩, 0, 7⟩, true, true⟩ rfl (by decide)).2.1

/-- C3: when some registry entry has address `addr`, `connect_peer`
returns the first such existing entry, opens no transport connection,
emits no registration events, and leaves the registry unchanged. -/
theorem connect_peer_existing (st : ServerState) (addr : SocketAddr) (env : DialEnv)
    (hex : ∃ q ∈ st.peers, q.info.addr = addr) :
    ∃ p, p ∈ st.peers ∧ p.info.addr = addr ∧
      connect_peer st addr env = ⟨.ok (some p), false, [], st.peers⟩ := by
  have hsome : (st.peers.find? (fun p => decide (p.info.addr = addr))).isSome := by
    rw [List.find?_isSome]
    obtain ⟨q, hq, hqa⟩ := hex
    exact ⟨q, hq, by simpa using hqa⟩
  obtain ⟨p, hp⟩ := Option.isSome_iff_exists.mp hsome
  refine ⟨p, List.mem_of_find?_eq_some hp, by simpa using List.find?_some hp, ?_⟩
  simp [connect_peer, hp]

theorem connect_peer_existing_witness :
    ∃ p, p ∈ [(⟨⟨⟨1, 2⟩, 0, 3⟩, true, true⟩ : Peer)] ∧ p.info.addr = ⟨1, 2⟩ ∧
      connect_peer ⟨⟨5, 6⟩, 0, [⟨⟨⟨1, 2⟩, 0, 3⟩, true, true⟩], none⟩ ⟨1, 2⟩
          ⟨true, ⟨0, .error ()⟩⟩
        = ⟨.ok (some p), false, [], [⟨⟨⟨1, 2⟩, 0, 3⟩, true, true⟩]⟩ := by
  exact connect_peer_existing ⟨⟨5, 6⟩, 0, [⟨⟨⟨1, 2⟩, 0, 3⟩, true, true⟩], none⟩ ⟨1, 2⟩
    ⟨true, ⟨0, .error ()⟩⟩ ⟨⟨⟨⟨1, 2⟩, 0, 3⟩, true, true⟩, by simp, rfl⟩

/-- C4, counterexample: with bind address 7:8 and a registry that
already holds an entry whose address is 7:8, `connect_peer` of the self
address returns that entry rather than `None` — the existing-entry check
runs before the self-address check. -/
theorem connect_peer_self_counterexample :
    (connect_peer ⟨⟨7, 8⟩, 0, [⟨⟨⟨7, 8⟩, 0, 1⟩, true, true⟩], none⟩ ⟨7, 8⟩
        ⟨true, ⟨0, .error ()⟩⟩).result
      = .ok (some ⟨⟨⟨7, 8⟩, 0, 1⟩, true, true⟩) ∧
    (Except.ok (some (⟨⟨⟨7, 8⟩, 0, 1⟩, true, true⟩ : Peer)) : Except Error (Option Peer))
      ≠ .ok none := by
  refine ⟨rfl, by simp⟩

/-- C4, amended: `connect_peer` of the node's own bind address returns
`None` and performs no dial for every registry state in which no entry
carries the self address. -/
theorem connect_peer_self_none (st : ServerState) (addr : SocketAddr) (env : DialEnv)
    (hip : addr.ip = st.config.host) (hport : addr.port = st.config.port)
    (hfresh : ∀ q ∈ st.peers, q.info.addr ≠ addr) :
    connect_peer st addr env = ⟨.ok none, false, [], st.peers⟩ := by
  have hfind : st.peers.find? (fun p => decide (p.info.addr = addr)) = none := by
    rw [List.find?_eq_none]
    intro q hq
    simpa using hfresh q hq
  simp [connect_peer, hfind, hip, hport]

theorem connect_peer_self_none_witness :
    connect_peer ⟨⟨7, 8⟩, 0, [], none⟩ ⟨7, 8⟩ ⟨true, ⟨0, .error ()⟩⟩
      = ⟨.ok none, false, [], []⟩ :=
  connect_peer_self_none ⟨⟨7, 8⟩, 0, [], none⟩ ⟨7, 8⟩ ⟨true, ⟨0, .error ()⟩⟩
    rfl rfl (by simp)

/-- C5: a handshake that would complete only after the fixed 5-second
timer makes the timed registration fail with `Timeout` and leaves the
registry unchanged; moreover every failed timed registration (the shared
inbound/outbound path) and every failed `connect_peer` leaves the
registry unchanged and inserts nothing (no events). -/
theorem handshake_timeout_no_insert (peers : List Peer) (env : HsEnv) (st : ServerState)
    (addr : SocketAddr) (denv : DialEnv) :
    (5 < env.dur → timed_add peers env = ⟨.error .Timeout, [], peers⟩) ∧
    (∀ e, (timed_add peers env).result = .error e →
      (timed_add peers env).peersAfter = peers ∧ (timed_add peers env).events = []) ∧
    (∀ e, (connect_peer st addr denv).result = .error e →
      (connect_peer st addr denv).peersAfter = st.peers ∧
      (connect_peer st addr denv).events = []) :=
  ⟨timed_add_timeout peers env, timed_add_error peers env, connect_peer_error st addr denv⟩

theorem handshake_timeout_no_insert_witness :
    timed_add [] ⟨6, .ok ⟨⟨⟨1, 1⟩, 0, 1⟩, true, true⟩⟩
      = ⟨.error .Timeout, [], []⟩ :=
  (handshake_timeout_no_insert [] ⟨6, .ok ⟨⟨⟨1, 1⟩, 0, 1⟩, true, true⟩⟩
      ⟨⟨0, 0⟩, 0, [], none⟩ ⟨0, 0⟩ ⟨true, ⟨0, .error ()⟩⟩).1 (by decide)

/-- C6: `clean_peers` keeps exactly the connected entries, removes and
returns exactly the disconnected ones, and kept plus removed is a
permutation of the pre-call registry. -/
theorem clean_peers_partitions (peers : List Peer) :
    (clean_peers peers).1 = peers.filter (·.connected) ∧
    (clean_peers peers).2 = peers.filter (fun p => !p.connected) ∧
    (∀ p ∈ (clean_peers peers).1, p.connected = true) ∧
    (∀ p ∈ (clean_peers peers).2, p.connected = false) ∧
    ((clean_peers peers).1 ++ (clean_peers peers).2).Perm peers := by
  have h := clean_peers_eq peers
  refine ⟨by rw [h], by rw [h], ?_, ?_, ?_⟩
  · intro p hp
    rw [h] at hp
    simpa using List.of_mem_filter hp
  · intro p hp
    rw [h] at hp
    simpa using List.of_mem_filter hp
  · rw [h]
    exact List.filter_append_perm _ peers

/-- C7: `broadcast_block` attempts `send_block` on exactly the connected
entries, in registry order, each with its own outcome — so one peer's
failure aborts no later attempt — and the registry (entries and their
connection state) is left unchanged. -/
theorem broadcast_block_best_effort (peers : List Peer) :
    (broadcast_block peers).1
      = (peers.filter (·.connected)).map (fun p => SendEvent.attempt p p.sendOk) ∧
    (broadcast_block peers).2 = peers := by
  refine ⟨?_, rfl⟩
  simpa [broadcast_block] using broadcast_foldl peers []

/-- C8: with the shutdown slot armed by a prior `start`, `stop` emits
exactly one `stop()` per registered entry (one per occurrence, in
registry order) and then fires the one-shot signal exactly once; a fired
signal completes the future returned by `start` with `Ok(())`
independently of how many per-peer run loops are still in flight. -/
theorem stop_stops_all (st : ServerState) (h : st.stopSlot = some ()) :
    (stop st).1 = st.peers.map StopEvent.peerStop ++ [StopEvent.fireSignal] ∧
    (∀ p, (stop st).1.count (StopEvent.peerStop p) = st.peers.count p) ∧
    (stop st).1.count StopEvent.fireSignal = 1 ∧
    (stop st).2 = some () ∧
    ∀ n, startResult true none n = some (.ok ()) := by
  have hstop : stop st = (st.peers.map StopEvent.peerStop ++ [StopEvent.fireSignal], some ()) := by
    simp [stop, h]
  have hinj : Function.Injective StopEvent.peerStop := by
    intro a b hab
    injection hab
  refine ⟨by rw [hstop], ?_, ?_, by rw [hstop], fun n => rfl⟩
  · intro p
    rw [hstop]
    rw [List.count_append, List.count_map_of_injective _ _ hinj]
    simp
  · rw [hstop, List.count_append]
    have h0 : (st.peers.map StopEvent.peerStop).count StopEvent.fireSignal = 0 := by
      rw [List.count_eq_zero]
      simp
    simp [h0]

theorem stop_stops_all_witness :
    (stop ⟨⟨0, 0⟩, 0, [⟨⟨⟨1, 2⟩, 0, 3⟩, true, true⟩], some ()⟩).1
      = [StopEvent.peerStop ⟨⟨⟨1, 2⟩, 0, 3⟩, true, true⟩, StopEvent.fireSignal] ∧
    (stop ⟨⟨0, 0⟩, 0, [⟨⟨⟨1, 2⟩, 0, 3⟩, true, true⟩], some ()⟩).2 = some () := by
  have h := stop_stops_all ⟨⟨0, 0⟩, 0, [⟨⟨⟨1, 2⟩, 0, 3⟩, true, true⟩], some ()⟩ rfl
  exact ⟨h.1, h.2.2.2.1⟩

/-- C9: `stop` on a server whose `start` never ran — the shutdown slot
still empty — panics at the `unwrap` of that slot (after the per-peer
`stop()` calls) rather than being silently ignored. -/
theorem stop_before_start_panics (st : ServerState) (h : st.stopSlot = none) :
    (stop st).2 = none ∧ (stop st).1 = st.peers.map StopEvent.peerStop := by
  simp [stop, h]

theorem stop_before_start_panics_witness :
    (stop ⟨⟨0, 0⟩, 0, [], none⟩).2 = none :=
  (stop_before_start_panics ⟨⟨0, 0⟩, 0, [], none⟩ rfl).1

/-- C10: `clean_peers` preserves the relative order of the kept entries:
the post-call registry is exactly the pre-call registry filtered to its
connected entries, hence a sublist (subsequence) of the pre-call
registry, so insertion order is stable across prunes. -/
theorem clean_peers_preserves_order (peers : List Peer) :
    (clean_peers peers).1 = peers.filter (·.connected) ∧
    (clean_peers peers).1.Sublist peers := by
  have h := clean_peers_eq peers
  refine ⟨by rw [h], ?_⟩
  rw [h]
  exact List.filter_sublist peers

end Grin
